import Mathlib

/-!
Verification of the HHI (Herfindahl–Hirschman Index) core of the
competition-toolkit repository.

The functions under scrutiny live in `src/utils/charts.py`
(`calculate_hhi`, `get_hhi_interpretation`, `validate_market_shares`,
`normalize_market_shares`), with band thresholds from
`src/utils/constants.py` (`HHI_BANDS`) and the per-firm contribution rows
built in `src/pages/02_HHI_Calculator_and_Visualizer.py`.

A Python dict of firm names to shares is embedded as an ordered
association list `List (String × ℚ)`: dict iteration order is insertion
order, which the list order mirrors.  Python floats are embedded as exact
rationals `ℚ`; all the arithmetic in these functions is plain field
arithmetic (`+`, `*`, `/`, `**`), so the embedding is faithful up to
floating rounding, which the claims themselves set aside.
-/

/-- A market-share mapping: firm name to share in percent, in insertion
order (Python `Dict[str, float]`). -/
abbrev MarketShares := List (String × ℚ)

/-- `sum(market_shares.values())` as used throughout `charts.py`. -/
def sumShares (ms : MarketShares) : ℚ :=
  (ms.map Prod.snd).sum

/-- From `src/utils/constants.py`: `HHI_BANDS["low"]["max"]`. -/
def HHI_BANDS_low_max : ℚ := 1500

/-- From `src/utils/constants.py`: `HHI_BANDS["moderate"]["max"]`. -/
def HHI_BANDS_moderate_max : ℚ := 2500

/-- The dictionary returned by `get_hhi_interpretation` in
`src/utils/charts.py` (keys `band`, `description`, `color`, `hhi_value`). -/
structure HHIInterpretation where
  band : String
  description : String
  color : String
  hhi_value : ℚ
deriving DecidableEq

/-- `get_hhi_interpretation` from `src/utils/charts.py` (lines 225–253):
`if hhi_value < HHI_BANDS["low"]["max"]` → low;
`elif hhi_value < HHI_BANDS["moderate"]["max"]` → moderate; else high. -/
def get_hhi_interpretation (hhi_value : ℚ) : HHIInterpretation :=
  if hhi_value < HHI_BANDS_low_max then
    { band := "low", description := "Low concentration", color := "green",
      hhi_value := hhi_value }
  else if hhi_value < HHI_BANDS_moderate_max then
    { band := "moderate", description := "Moderate concentration",
      color := "orange", hhi_value := hhi_value }
  else
    { band := "high", description := "High concentration", color := "red",
      hhi_value := hhi_value }

/-- `calculate_hhi` from `src/utils/charts.py` (lines 256–276):
`squared_shares = [((share / 100) ** 2) for share in market_shares.values()]`
then `hhi = sum(squared_shares) * 10000`.  (The `except` branch only fires
on a Python-level type error, which the typed embedding excludes.) -/
def calculate_hhi (market_shares : MarketShares) : ℚ :=
  ((market_shares.map (fun p => (p.2 / 100) ^ 2)).sum) * 10000

/-- The per-firm loop of `validate_market_shares`: first share `< 0` or
`> 100` (scanned in insertion order) fails with its message. -/
def validateFirms : MarketShares → Bool × String
  | [] => (true, "")
  | (firm, share) :: rest =>
    if share < 0 then
      (false, "Market share for " ++ firm ++ " cannot be negative")
    else if share > 100 then
      (false, "Market share for " ++ firm ++ " cannot exceed 100%")
    else validateFirms rest

/-- `validate_market_shares` from `src/utils/charts.py` (lines 279–306).
Checks, in order: empty input, `total_share > 100`, `total_share < 0`,
then each firm via the loop embedded as `validateFirms`.  (The Python
message for the total interpolates the formatted sum; the embedding keeps
the fixed prefix, which is all the claims depend on.) -/
def validate_market_shares (market_shares : MarketShares) : Bool × String :=
  if market_shares.isEmpty then
    (false, "No market shares provided")
  else if sumShares market_shares > 100 then
    (false, "Total market share exceeds 100%")
  else if sumShares market_shares < 0 then
    (false, "Total market share cannot be negative")
  else
    validateFirms market_shares

/-- `normalize_market_shares` from `src/utils/charts.py` (lines 309–328):
returns the input unchanged when the total is 0, otherwise rescales every
share by `(share / total_share) * 100`, keeping insertion order. -/
def normalize_market_shares (market_shares : MarketShares) : MarketShares :=
  if sumShares market_shares = 0 then market_shares
  else
    market_shares.map (fun p => (p.1, p.2 / sumShares market_shares * 100))

/-- One entry of the `"shares"` list built in
`src/pages/02_HHI_Calculator_and_Visualizer.py` (lines 285–288):
`[firm, share, (share/100)**2, ((share/100)**2 * 10000)]`.  The same
`((share/100)**2 * 10000)` expression fills the "Contribution to HHI"
column of the on-page report rows. -/
structure ShareRow where
  firm : String
  share : ℚ
  squared : ℚ
  contribution : ℚ
deriving DecidableEq

/-- The `"shares"` export rows / report rows, one per firm in input order. -/
def sharesExportRows (market_shares : MarketShares) : List ShareRow :=
  market_shares.map (fun p =>
    { firm := p.1, share := p.2, squared := (p.2 / 100) ^ 2,
      contribution := (p.2 / 100) ^ 2 * 10000 })

/-- The four-firm input of the end-to-end scenario. -/
def fourFirms : MarketShares :=
  [("Firm A", 40), ("Firm B", 30), ("Firm C", 20), ("Firm D", 10)]

/-- Below the low bound the interpreter returns the full low record. -/
lemma interp_of_lt_low {v : ℚ} (h : v < 1500) :
    get_hhi_interpretation v =
      { band := "low", description := "Low concentration", color := "green",
        hhi_value := v } := by
  unfold get_hhi_interpretation HHI_BANDS_low_max
  rw [if_pos h]

/-- In [1500, 2500) the interpreter returns the full moderate record. -/
lemma interp_of_moderate {v : ℚ} (h1 : 1500 ≤ v) (h2 : v < 2500) :
    get_hhi_interpretation v =
      { band := "moderate", description := "Moderate concentration",
        color := "orange", hhi_value := v } := by
  unfold get_hhi_interpretation HHI_BANDS_low_max HHI_BANDS_moderate_max
  rw [if_neg (not_lt.mpr h1), if_pos h2]

/-- At or above 2500 the interpreter returns the full high record. -/
lemma interp_of_high {v : ℚ} (h2 : 2500 ≤ v) :
    get_hhi_interpretation v =
      { band := "high", description := "High concentration", color := "red",
        hhi_value := v } := by
  unfold get_hhi_interpretation HHI_BANDS_low_max HHI_BANDS_moderate_max
  rw [if_neg (not_lt.mpr (le_trans (by norm_num) h2)),
    if_neg (not_lt.mpr h2)]

/-- HHI of the four-firm scenario input evaluates to 3000. -/
lemma hhi_fourFirms : calculate_hhi fourFirms = 3000 := by
  norm_num [calculate_hhi, fourFirms]

/-- C1 counterexample: on the scenario input the HHI is 3000, and
`get_hhi_interpretation 3000` returns the band `"high"` (3000 is not below
the moderate bound 2500), not `"moderate"` as the claim states. -/
theorem C1_band_counterexample :
    calculate_hhi fourFirms = 3000 ∧
    (get_hhi_interpretation (calculate_hhi fourFirms)).band ≠ "moderate" := by
  refine ⟨hhi_fourFirms, ?_⟩
  rw [hhi_fourFirms, interp_of_high (by norm_num)]
  decide

/-- C1 (amended): input `{"Firm A":40,"Firm B":30,"Firm C":20,"Firm D":10}`
with no normalization gives HHI = 3000, band High, and four report rows
with contributions `[1600, 900, 400, 100]` in input order. -/
theorem C1_end_to_end :
    calculate_hhi fourFirms = 3000 ∧
    (get_hhi_interpretation (calculate_hhi fourFirms)).band = "high" ∧
    (sharesExportRows fourFirms).map ShareRow.contribution =
      [1600, 900, 400, 100] := by
  refine ⟨hhi_fourFirms, ?_, ?_⟩
  · rw [hhi_fourFirms, interp_of_high (by norm_num)]
  · norm_num [sharesExportRows, fourFirms]

/-- C4: on non-negative inputs `get_hhi_interpretation` realises exactly
the half-open bands Low = [0,1500), Moderate = [1500,2500), High = [2500,∞),
and in particular 1499.999 is Low, 1500 is Moderate, 2500 is High. -/
theorem C4_band_partition :
    (∀ v : ℚ, 0 ≤ v →
      (((get_hhi_interpretation v).band = "low" ↔ v < 1500) ∧
       ((get_hhi_interpretation v).band = "moderate" ↔ 1500 ≤ v ∧ v < 2500) ∧
       ((get_hhi_interpretation v).band = "high" ↔ 2500 ≤ v))) ∧
    (get_hhi_interpretation (1499999 / 1000)).band = "low" ∧
    (get_hhi_interpretation 1500).band = "moderate" ∧
    (get_hhi_interpretation 2500).band = "high" := by
  refine ⟨?_, ?_, ?_, ?_⟩
  · intro v _
    rcases lt_or_le v 1500 with h1 | h1
    · rw [interp_of_lt_low h1]
      refine ⟨by simpa using h1, ?_, ?_⟩
      · constructor
        · intro h
          exact absurd h (show ("low" : String) = "moderate" → False by decide)
        · intro h; exact absurd h1 (not_lt.mpr h.1)
      · constructor
        · intro h
          exact absurd h (show ("low" : String) = "high" → False by decide)
        · intro h; exact absurd h1 (not_lt.mpr (le_trans (by norm_num) h))
    · rcases lt_or_le v 2500 with h2 | h2
      · rw [interp_of_moderate h1 h2]
        refine ⟨?_, by simp [h1, h2], ?_⟩
        · constructor
          · intro h
            exact absurd h (show ("moderate" : String) = "low" → False by decide)
          · intro h; exact absurd h (not_lt.mpr h1)
        · constructor
          · intro h
            exact absurd h (show ("moderate" : String) = "high" → False by decide)
          · intro h; exact absurd h2 (not_lt.mpr h)
      · rw [interp_of_high h2]
        refine ⟨?_, ?_, by simpa using h2⟩
        · constructor
          · intro h
            exact absurd h (show ("high" : String) = "low" → False by decide)
          · intro h; exact absurd h (not_lt.mpr (le_trans (by norm_num) h2))
        · constructor
          · intro h
            exact absurd h (show ("high" : String) = "moderate" → False by decide)
          · intro h; exact absurd h.2 (not_lt.mpr h2)
  · rw [interp_of_lt_low (by norm_num)]
  · rw [interp_of_moderate (by norm_num) (by norm_num)]
  · rw [interp_of_high (by norm_num)]

/-- C4 witness: the partition theorem applied at the concrete value 1600,
which lands in the Moderate band. -/
theorem C4_band_partition_witness :
    (get_hhi_interpretation 1600).band = "moderate" :=
  ((C4_band_partition.1 1600 (by norm_num)).2.1).mpr (by norm_num)

/-- C9: `get_hhi_interpretation` is total, and every input strictly below
1500 — negative values included — gets the band `"low"` with description
`"Low concentration"` rather than an error. -/
theorem C9_low_total (v : ℚ) (h : v < 1500) :
    (get_hhi_interpretation v).band = "low" ∧
    (get_hhi_interpretation v).description = "Low concentration" := by
  unfold get_hhi_interpretation HHI_BANDS_low_max
  rw [if_pos h]
  exact ⟨rfl, rfl⟩

/-- C9 witness: the theorem at the concrete negative input −250. -/
theorem C9_low_total_witness :
    (get_hhi_interpretation (-250)).band = "low" ∧
    (get_hhi_interpretation (-250)).description = "Low concentration" :=
  C9_low_total (-250) (by norm_num)

/-- The firm loop accepts exactly the lists whose every share is in
[0, 100]. -/
lemma validateFirms_true_iff (ms : MarketShares) :
    (validateFirms ms).1 = true ↔ ∀ p ∈ ms, 0 ≤ p.2 ∧ p.2 ≤ 100 := by
  induction ms with
  | nil => simp [validateFirms]
  | cons hd tl ih =>
    obtain ⟨firm, share⟩ := hd
    unfold validateFirms
    by_cases h1 : share < 0
    · rw [if_pos h1]
      simp only [List.mem_cons, Prod.forall]
      constructor
      · intro h; exact absurd h (by simp)
      · intro hall
        exact absurd (hall firm share (Or.inl rfl)).1 (not_le.mpr h1)
    · rw [if_neg h1]
      by_cases h2 : share > 100
      · rw [if_pos h2]
        simp only [List.mem_cons]
        constructor
        · intro h; exact absurd h (by simp)
        · intro hall
          exact absurd (hall _ (Or.inl rfl)).2 (not_le.mpr h2)
      · rw [if_neg h2]
        rw [ih]
        simp only [List.mem_cons]
        constructor
        · intro hall p hp
          rcases hp with rfl | hp
          · exact ⟨not_lt.mp h1, not_lt.mp h2⟩
          · exact hall p hp
        · intro hall p hp
          exact hall p (Or.inr hp)

/-- The firm loop rejects exactly the lists containing a share outside
[0, 100]. -/
lemma validateFirms_false_iff (ms : MarketShares) :
    (validateFirms ms).1 = false ↔ ∃ p ∈ ms, p.2 < 0 ∨ 100 < p.2 := by
  rw [← Bool.not_eq_true, validateFirms_true_iff]
  push_neg
  constructor
  · rintro ⟨p, hp, hbad⟩
    refine ⟨p, hp, ?_⟩
    by_cases h0 : 0 ≤ p.2
    · exact Or.inr (hbad h0)
    · exact Or.inl (not_le.mp h0)
  · rintro ⟨p, hp, hbad | hbad⟩
    · exact ⟨p, hp, fun h0 => absurd hbad (not_lt.mpr h0)⟩
    · exact ⟨p, hp, fun _ => hbad⟩

/-- If every share is non-negative, the total is non-negative. -/
lemma sumShares_nonneg {ms : MarketShares} (h : ∀ p ∈ ms, 0 ≤ p.2) :
    0 ≤ sumShares ms := by
  unfold sumShares
  apply List.sum_nonneg
  intro x hx
  rcases List.mem_map.mp hx with ⟨p, hp, rfl⟩
  exact h p hp

/-- The epsilon tolerance named by the specification, 1e-6. -/
def epsTol : ℚ := 1 / 1000000

/-- A two-firm input whose shares each lie in [0, 100] and whose total,
100 + 1e-7, lies in the window (100, 100 + epsTol]. -/
def twoFirmsJustOver : MarketShares :=
  [("A", 60), ("B", 40 + 1 / 10000000)]

/-- C2 counterexample: every share of `twoFirmsJustOver` is in [0, 100]
and the total is at most 100 + ε with ε = 1e-6, yet the validator returns
Invalid — the code compares the total against exactly 100 with no
tolerance, so a sum in (100, 100 + ε] is rejected. -/
theorem C2_eps_counterexample :
    (∀ p ∈ twoFirmsJustOver, 0 ≤ p.2 ∧ p.2 ≤ 100) ∧
    sumShares twoFirmsJustOver ≤ 100 + epsTol ∧
    (validate_market_shares twoFirmsJustOver).1 = false := by
  refine ⟨?_, ?_, ?_⟩
  · intro p hp
    simp only [twoFirmsJustOver, List.mem_cons, List.not_mem_nil,
      or_false] at hp
    rcases hp with rfl | rfl <;> norm_num
  · norm_num [sumShares, twoFirmsJustOver, epsTol]
  · have hgt : sumShares twoFirmsJustOver > 100 := by
      norm_num [sumShares, twoFirmsJustOver]
    unfold validate_market_shares
    rw [if_neg (by simp [twoFirmsJustOver]), if_pos hgt]

/-- C2 (amended): a non-empty mapping whose every share lies in [0, 100]
and whose total is at most exactly 100 (no epsilon allowance) is accepted
as Valid. -/
theorem C2_valid_of_bounds (ms : MarketShares) (hne : ms ≠ [])
    (hb : ∀ p ∈ ms, 0 ≤ p.2 ∧ p.2 ≤ 100) (hsum : sumShares ms ≤ 100) :
    (validate_market_shares ms).1 = true := by
  have h0 : 0 ≤ sumShares ms := sumShares_nonneg fun p hp => (hb p hp).1
  unfold validate_market_shares
  rw [if_neg (by simpa [List.isEmpty_iff] using hne),
    if_neg (not_lt.mpr hsum), if_neg (not_lt.mpr h0)]
  exact (validateFirms_true_iff ms).mpr hb

/-- C2 witness: the amended theorem at the concrete input
[("A", 60), ("B", 40)]. -/
theorem C2_valid_of_bounds_witness :
    (validate_market_shares [("A", 60), ("B", 40)]).1 = true := by
  apply C2_valid_of_bounds
  · simp
  · intro p hp
    simp only [List.mem_cons, List.not_mem_nil, or_false] at hp
    rcases hp with rfl | rfl <;> norm_num
  · norm_num [sumShares]

/-- A second two-firm input with total 100 + 1e-7 (for the C3 boundary). -/
def twoFirmsJustOverB : MarketShares :=
  [("C", 50), ("D", 50 + 1 / 10000000)]

/-- C3 counterexample: the validator rejects `twoFirmsJustOverB`, yet none
of the claimed Invalid conditions holds there when the sum comparison
carries the spec tolerance ε = 1e-6: the list is non-empty, no share is
negative, no share exceeds 100, and the total does not exceed 100 + ε. -/
theorem C3_eps_counterexample :
    (validate_market_shares twoFirmsJustOverB).1 = false ∧
    ¬ (twoFirmsJustOverB = [] ∨
        (∃ p ∈ twoFirmsJustOverB, p.2 < 0) ∨
        (∃ p ∈ twoFirmsJustOverB, 100 < p.2) ∨
        100 + epsTol < sumShares twoFirmsJustOverB) := by
  constructor
  · have hgt : sumShares twoFirmsJustOverB > 100 := by
      norm_num [sumShares, twoFirmsJustOverB]
    unfold validate_market_shares
    rw [if_neg (by simp [twoFirmsJustOverB]), if_pos hgt]
  · push_neg
    refine ⟨by simp [twoFirmsJustOverB], ?_, ?_, ?_⟩
    · intro p hp
      simp only [twoFirmsJustOverB, List.mem_cons, List.not_mem_nil,
        or_false] at hp
      rcases hp with rfl | rfl <;> norm_num
    · intro p hp
      simp only [twoFirmsJustOverB, List.mem_cons, List.not_mem_nil,
        or_false] at hp
      rcases hp with rfl | rfl <;> norm_num
    · norm_num [sumShares, twoFirmsJustOverB, epsTol]

/-- C3 (amended): the validator returns Invalid exactly when the mapping
is empty, some share is negative, some share exceeds 100, or the total
strictly exceeds 100 — with no tolerance on the sum comparison; in every
other case, a total strictly below 100 included, it returns Valid. -/
theorem C3_invalid_iff (ms : MarketShares) :
    (validate_market_shares ms).1 = false ↔
      (ms = [] ∨ (∃ p ∈ ms, p.2 < 0) ∨ (∃ p ∈ ms, 100 < p.2) ∨
        100 < sumShares ms) := by
  by_cases hemp : ms = []
  · subst hemp
    simp [validate_market_shares]
  · unfold validate_market_shares
    rw [if_neg (by simpa [List.isEmpty_iff] using hemp)]
    by_cases ht : sumShares ms > 100
    · rw [if_pos ht]
      simp [ht]
    · rw [if_neg ht]
      by_cases hneg : sumShares ms < 0
      · rw [if_pos hneg]
        have hex : ∃ p ∈ ms, p.2 < 0 := by
          by_contra hall
          push_neg at hall
          exact absurd (sumShares_nonneg hall) (not_le.mpr hneg)
        simp [hex]
      · rw [if_neg hneg, validateFirms_false_iff]
        constructor
        · rintro ⟨p, hp, hbad | hbad⟩
          · exact Or.inr (Or.inl ⟨p, hp, hbad⟩)
          · exact Or.inr (Or.inr (Or.inl ⟨p, hp, hbad⟩))
        · rintro (rfl | ⟨p, hp, hbad⟩ | ⟨p, hp, hbad⟩ | hbad)
          · exact absurd rfl hemp
          · exact ⟨p, hp, Or.inl hbad⟩
          · exact ⟨p, hp, Or.inr hbad⟩
          · exact absurd hbad ht

/-- C5: `calculate_hhi` implements `sum((share/100)^2) * 10000`; the pure
monopoly evaluates to 10000, four equal quartiles evaluate to 2500, and the
result is invariant under reordering the entries. -/
theorem C5_hhi_formula :
    (∀ ms : MarketShares,
      calculate_hhi ms = ((ms.map (fun p => (p.2 / 100) ^ 2)).sum) * 10000) ∧
    calculate_hhi [("A", 100)] = 10000 ∧
    calculate_hhi [("A", 25), ("B", 25), ("C", 25), ("D", 25)] = 2500 ∧
    (∀ ms ms' : MarketShares, ms.Perm ms' →
      calculate_hhi ms = calculate_hhi ms') := by
  refine ⟨fun ms => rfl, by norm_num [calculate_hhi], by norm_num [calculate_hhi], ?_⟩
  intro ms ms' hperm
  unfold calculate_hhi
  rw [List.Perm.sum_eq (List.Perm.map _ hperm)]

/-- C5 witness: order invariance applied to the concrete two-element
swap of [("A", 30), ("B", 70)]. -/
theorem C5_hhi_formula_witness :
    calculate_hhi [("A", 30), ("B", 70)] =
      calculate_hhi [("B", 70), ("A", 30)] :=
  C5_hhi_formula.2.2.2 _ _ (List.Perm.swap ("B", 70) ("A", 30) [])

/-- Summing after the rescale of `normalize_market_shares` is summing the
rescale of the total. -/
lemma sum_map_div_mul (l : List ℚ) (t : ℚ) :
    (l.map (fun x => x / t * 100)).sum = l.sum / t * 100 := by
  induction l with
  | nil => simp
  | cons x xs ih =>
    simp only [List.map_cons, List.sum_cons, ih]
    ring

/-- Normalizing a non-zero-sum mapping yields a total of exactly 100. -/
lemma sum_normalize (ms : MarketShares) (h : sumShares ms ≠ 0) :
    sumShares (normalize_market_shares ms) = 100 := by
  unfold normalize_market_shares
  rw [if_neg h]
  show ((ms.map fun p => (p.1, p.2 / sumShares ms * 100)).map Prod.snd).sum
    = 100
  rw [List.map_map]
  have hfun : (Prod.snd ∘ fun p : String × ℚ =>
      (p.1, p.2 / sumShares ms * 100)) =
      ((fun x : ℚ => x / sumShares ms * 100) ∘ Prod.snd) := rfl
  rw [hfun, ← List.map_map, sum_map_div_mul]
  show sumShares ms / sumShares ms * 100 = 100
  rw [div_self h]
  norm_num

/-- C6: on a non-zero-sum mapping, normalization rescales every share by
`100 / sum(shares)` in place (firm order kept) and the normalized shares
sum to exactly 100; on a zero-sum mapping it returns the input unchanged. -/
theorem C6_normalize :
    (∀ ms : MarketShares, sumShares ms ≠ 0 →
      normalize_market_shares ms =
        ms.map (fun p => (p.1, p.2 * (100 / sumShares ms))) ∧
      sumShares (normalize_market_shares ms) = 100) ∧
    (∀ ms : MarketShares, sumShares ms = 0 →
      normalize_market_shares ms = ms) := by
  constructor
  · intro ms h
    refine ⟨?_, sum_normalize ms h⟩
    unfold normalize_market_shares
    rw [if_neg h]
    have hfun : (fun p : String × ℚ => (p.1, p.2 / sumShares ms * 100)) =
        fun p : String × ℚ => (p.1, p.2 * (100 / sumShares ms)) := by
      funext p
      rw [Prod.mk.injEq]
      exact ⟨rfl, by ring⟩
    rw [hfun]
  · intro ms h
    unfold normalize_market_shares
    rw [if_pos h]

/-- C6 witness: the theorem applied at [("A", 20), ("B", 30)] (total 50)
and, for the zero branch, at [("Z", 0)]. -/
theorem C6_normalize_witness :
    (normalize_market_shares [("A", 20), ("B", 30)] =
      ([("A", 20), ("B", 30)] : MarketShares).map
        (fun p => (p.1, p.2 * (100 / sumShares [("A", 20), ("B", 30)]))) ∧
     sumShares (normalize_market_shares [("A", 20), ("B", 30)]) = 100) ∧
    normalize_market_shares [("Z", 0)] = [("Z", 0)] :=
  ⟨C6_normalize.1 [("A", 20), ("B", 30)] (by norm_num [sumShares]),
   C6_normalize.2 [("Z", 0)] (by norm_num [sumShares])⟩

/-- Normalization is the identity on a mapping whose total is already
100: the scale factor is 100/100 = 1. -/
lemma normalize_of_sum_100 (ms : MarketShares) (h : sumShares ms = 100) :
    normalize_market_shares ms = ms := by
  unfold normalize_market_shares
  rw [if_neg (by rw [h]; norm_num), h]
  have hfun : (fun p : String × ℚ => (p.1, p.2 / 100 * 100)) =
      (id : String × ℚ → String × ℚ) := by
    funext p
    rw [Prod.mk.injEq]
    exact ⟨rfl, div_mul_cancel₀ p.2 (by norm_num)⟩
  rw [hfun, List.map_id]

/-- C7: normalization is idempotent — it changes nothing on a mapping
already summing to 100 (scale factor 1), and normalizing twice equals
normalizing once on any non-zero-sum mapping. -/
theorem C7_normalize_idempotent :
    (∀ ms : MarketShares, sumShares ms = 100 →
      normalize_market_shares ms = ms) ∧
    (∀ ms : MarketShares, sumShares ms ≠ 0 →
      normalize_market_shares (normalize_market_shares ms) =
        normalize_market_shares ms) := by
  refine ⟨normalize_of_sum_100, ?_⟩
  intro ms h
  exact normalize_of_sum_100 _ (sum_normalize ms h)

/-- C7 witness: the theorem applied at the already-normalized input
[("A", 60), ("B", 40)] and at the unnormalized input [("C", 1), ("D", 3)]. -/
theorem C7_normalize_idempotent_witness :
    normalize_market_shares [("A", 60), ("B", 40)] = [("A", 60), ("B", 40)] ∧
    normalize_market_shares (normalize_market_shares [("C", 1), ("D", 3)]) =
      normalize_market_shares [("C", 1), ("D", 3)] :=
  ⟨C7_normalize_idempotent.1 [("A", 60), ("B", 40)] (by norm_num [sumShares]),
   C7_normalize_idempotent.2 [("C", 1), ("D", 3)] (by norm_num [sumShares])⟩

/-- Each HHI contribution `(x/100)^2 * 10000` is the squared share. -/
lemma contrib_eq_sq (x : ℚ) : (x / 100) ^ 2 * 10000 = x ^ 2 := by
  rw [div_pow, show ((100 : ℚ) ^ 2) = 10000 by norm_num,
    div_mul_cancel₀ (x ^ 2) (by norm_num : (10000 : ℚ) ≠ 0)]

/-- C10: the per-firm contribution column of the report/export rows sums
to exactly the value `calculate_hhi` returns on the same mapping. -/
theorem C10_contributions_sum (ms : MarketShares) :
    ((sharesExportRows ms).map ShareRow.contribution).sum =
      calculate_hhi ms := by
  unfold sharesExportRows calculate_hhi
  rw [List.map_map, ← List.sum_map_mul_right]
  rfl

/-- `calculate_hhi` equals the plain sum of squared percentage shares:
the `/100` and `*10000` cancel exactly. -/
lemma calculate_hhi_eq_sum_sq (ms : MarketShares) :
    calculate_hhi ms = ((ms.map Prod.snd).map (fun x => x ^ 2)).sum := by
  unfold calculate_hhi
  have hfun : (fun p : String × ℚ => (p.2 / 100) ^ 2 * 10000) =
      ((fun x : ℚ => x ^ 2) ∘ Prod.snd) := funext fun p => contrib_eq_sq p.2
  rw [← List.sum_map_mul_right, List.map_map, hfun]

/-- A Valid verdict forces a total of at most 100 and every share into
[0, 100]. -/
lemma valid_implies (ms : MarketShares)
    (hv : (validate_market_shares ms).1 = true) :
    sumShares ms ≤ 100 ∧ ∀ p ∈ ms, 0 ≤ p.2 ∧ p.2 ≤ 100 := by
  unfold validate_market_shares at hv
  by_cases hemp : ms.isEmpty = true
  · rw [if_pos hemp] at hv
    exact absurd hv (by simp)
  · rw [if_neg hemp] at hv
    by_cases ht : sumShares ms > 100
    · rw [if_pos ht] at hv
      exact absurd hv (by simp)
    · rw [if_neg ht] at hv
      by_cases hn : sumShares ms < 0
      · rw [if_pos hn] at hv
        exact absurd hv (by simp)
      · rw [if_neg hn] at hv
        exact ⟨not_lt.mp ht, (validateFirms_true_iff ms).mp hv⟩

/-- With every element in [0, 100], the sum of squares is at most 100
times the sum. -/
lemma sum_sq_le (l : List ℚ) : (∀ x ∈ l, 0 ≤ x ∧ x ≤ 100) →
    (l.map (fun x => x ^ 2)).sum ≤ 100 * l.sum := by
  induction l with
  | nil => intro _; simp
  | cons x xs ih =>
    intro h
    have hx := h x (List.mem_cons_self x xs)
    have hxs := ih (fun y hy => h y (List.mem_cons_of_mem x hy))
    simp only [List.map_cons, List.sum_cons]
    nlinarith [hx.1, hx.2, hxs]

/-- A list of non-negative rationals summing to zero is all zeros. -/
lemma all_eq_zero_of_sum_eq_zero (l : List ℚ) : (∀ x ∈ l, 0 ≤ x) →
    l.sum = 0 → ∀ x ∈ l, x = 0 := by
  induction l with
  | nil => intro _ _ x hx; exact absurd hx (List.not_mem_nil x)
  | cons x xs ih =>
    intro h hsum y hy
    have hx : 0 ≤ x := h x (List.mem_cons_self x xs)
    have hxs : 0 ≤ xs.sum :=
      List.sum_nonneg (fun z hz => h z (List.mem_cons_of_mem x hz))
    rw [List.sum_cons] at hsum
    rcases List.mem_cons.mp hy with rfl | hy
    · linarith
    · exact ih (fun z hz => h z (List.mem_cons_of_mem x hz))
        (by linarith) y hy

/-- Sums of pointwise differences split. -/
lemma sum_map_sub (l : List ℚ) (f g : ℚ → ℚ) :
    (l.map (fun x => f x - g x)).sum = (l.map f).sum - (l.map g).sum := by
  induction l with
  | nil => simp
  | cons x xs ih =>
    simp only [List.map_cons, List.sum_cons, ih]
    ring

/-- How many entries of a share list are exactly 100 (used to phrase the
single-firm monopoly case). -/
def countHundred : List ℚ → Nat
  | [] => 0
  | x :: xs => (if x = 100 then 1 else 0) + countHundred xs

/-- When every entry is 0 or 100, the sum is 100 times the number of
100-entries. -/
lemma sum_eq_count (m : List ℚ) : (∀ x ∈ m, x = 0 ∨ x = 100) →
    m.sum = 100 * (countHundred m : ℚ) := by
  induction m with
  | nil => intro _; simp [countHundred]
  | cons x xs ih =>
    intro hm
    have hx := hm x (List.mem_cons_self x xs)
    have hxs := ih (fun y hy => hm y (List.mem_cons_of_mem x hy))
    rcases hx with rfl | rfl
    · have hcz : countHundred ((0 : ℚ) :: xs) = countHundred xs := by
        norm_num [countHundred]
      rw [List.sum_cons, hxs, hcz]
      ring
    · have hco : countHundred ((100 : ℚ) :: xs) = 1 + countHundred xs := by
        norm_num [countHundred]
      rw [List.sum_cons, hxs, hco]
      push_cast
      ring

/-- C8: on every mapping the validator accepts, the HHI lies in
[0, 10000], and it attains 10000 only in the single-firm monopoly case:
every share is 0 or 100, and exactly one share equals 100. -/
theorem C8_hhi_range (ms : MarketShares)
    (hv : (validate_market_shares ms).1 = true) :
    0 ≤ calculate_hhi ms ∧ calculate_hhi ms ≤ 10000 ∧
    (calculate_hhi ms = 10000 →
      (∀ p ∈ ms, p.2 = 0 ∨ p.2 = 100) ∧
      countHundred (ms.map Prod.snd) = 1) := by
  obtain ⟨hsum, hb⟩ := valid_implies ms hv
  have hb' : ∀ x ∈ ms.map Prod.snd, 0 ≤ x ∧ x ≤ 100 := by
    intro x hx
    rcases List.mem_map.mp hx with ⟨p, hp, rfl⟩
    exact hb p hp
  have hsum' : (ms.map Prod.snd).sum ≤ 100 := hsum
  rw [calculate_hhi_eq_sum_sq]
  refine ⟨?_, ?_, ?_⟩
  · apply List.sum_nonneg
    intro x hx
    rcases List.mem_map.mp hx with ⟨y, _, rfl⟩
    exact sq_nonneg y
  · have h1 := sum_sq_le (ms.map Prod.snd) hb'
    linarith
  · intro heq
    have h1 := sum_sq_le (ms.map Prod.snd) hb'
    have hsum_eq : (ms.map Prod.snd).sum = 100 := by linarith
    have hzero : ∀ y ∈ (ms.map Prod.snd).map (fun x => 100 * x - x ^ 2),
        y = 0 := by
      apply all_eq_zero_of_sum_eq_zero
      · intro y hy
        rcases List.mem_map.mp hy with ⟨x, hx, rfl⟩
        have hxb := hb' x hx
        nlinarith [hxb.1, hxb.2]
      · rw [sum_map_sub, heq]
        have e1 : ((ms.map Prod.snd).map (fun x => 100 * x)).sum =
            100 * (ms.map Prod.snd).sum := by
          have := List.sum_map_mul_left (ms.map Prod.snd) (fun x : ℚ => x) 100
          simpa using this
        rw [e1, hsum_eq]
        norm_num
    have helem : ∀ x ∈ ms.map Prod.snd, x = 0 ∨ x = 100 := by
      intro x hx
      have h0 : 100 * x - x ^ 2 = 0 :=
        hzero _ (List.mem_map.mpr ⟨x, hx, rfl⟩)
      have hfac : x * (100 - x) = 0 := by linear_combination h0
      rcases mul_eq_zero.mp hfac with h | h
      · exact Or.inl h
      · exact Or.inr (by linarith)
    constructor
    · intro p hp
      exact helem p.2 (List.mem_map.mpr ⟨p, hp, rfl⟩)
    · have hcount := sum_eq_count (ms.map Prod.snd) helem
      rw [hsum_eq] at hcount
      have hc : (countHundred (ms.map Prod.snd) : ℚ) = 1 := by linarith
      exact_mod_cast hc

/-- C8 witness: the theorem applied at the accepted monopoly input
[("A", 100)]. -/
theorem C8_hhi_range_witness :
    0 ≤ calculate_hhi [("A", 100)] ∧ calculate_hhi [("A", 100)] ≤ 10000 ∧
    (calculate_hhi [("A", 100)] = 10000 →
      (∀ p ∈ ([("A", 100)] : MarketShares), p.2 = 0 ∨ p.2 = 100) ∧
      countHundred (([("A", 100)] : MarketShares).map Prod.snd) = 1) :=
  C8_hhi_range [("A", 100)] (by
    have h1 : sumShares [("A", (100 : ℚ))] = 100 := by norm_num [sumShares]
    unfold validate_market_shares
    rw [if_neg (by simp), if_neg (by rw [h1]; norm_num),
      if_neg (by rw [h1]; norm_num)]
    norm_num [validateFirms])
